import Mathlib

/-!
Shallow embedding of `ihex_binary` (src/lib.rs): the IHEX record-to-image
unpacking core.  The Rust `unpack_records` consumes an iterator of
`Result<Record, ReaderError>`, mutates a byte buffer in place and returns
`Result<usize, UnpackingError>`.  We model the iterator as a list, the
buffer as a `List Nat` threaded through the recursion, and the in-place
mutation by returning the final buffer alongside the result.  Machine
`usize` arithmetic is modelled over `Nat`; the only operation where
wraparound matters (the base-address subtraction, which the source performs
with unchecked unsigned subtraction) is modelled explicitly mod 2^64.
-/

namespace IhexBinary

/-- The modulus of the target's `usize` type (64-bit). -/
def USIZE_MOD : Nat := 2 ^ 64

/-- Wrapping (two's-complement) subtraction on `usize`, the release-mode
semantics of Rust's `a - b` on unsigned integers.  For `a b < USIZE_MOD`
this agrees with exact subtraction exactly when `b ≤ a`. -/
def usizeSub (a b : Nat) : Nat := (a + (USIZE_MOD - b % USIZE_MOD)) % USIZE_MOD

/-- The `ihex::Record` enum (the variants consumed by `unpack_records`).
`offset` and the base values are `u16` in the source, payload bytes `u8`;
they are modelled as `Nat`, with range hypotheses added where a claim
needs them. -/
inductive Record where
  | Data (offset : Nat) (value : List Nat)
  | ExtendedSegmentAddress (base : Nat)
  | ExtendedLinearAddress (base : Nat)
  | EndOfFile
  | StartSegmentAddress (cs ip : Nat)
  | StartLinearAddress (a : Nat)
deriving DecidableEq, Repr

/-- `UnpackingError` from src/lib.rs.  The parse-error cause (`ReaderError`,
produced by the external `ihex` reader) is opaque to this crate, so it is a
type parameter `ε`. -/
inductive UnpackingError (ε : Type) where
  | Parsing (cause : ε)
  | AddressTooHigh (addr : Nat) (len : Nat)
deriving DecidableEq, Repr

/-- The write loop of the `Data` arm:
`for (n, b) in value.iter().enumerate() { binary[start + n] = *b }`.
Rust's checked indexing is modelled by `List.set` (claim C10 establishes
that every index reached here is in bounds). -/
def writeBytes : List Nat → Nat → List Nat → List Nat
  | binary, _, [] => binary
  | binary, start, b :: bs => writeBytes (binary.set start b) (start + 1) bs

/-- The body of `unpack_records`' `for` loop, with the mutable locals
`base_address` and `used_bytes` and the mutable buffer made explicit
state.  Returns the final buffer (the in-place mutation) together with
`Result<usize, UnpackingError>`.  `end_addr` and the write indices are
computed with exact (unbounded) `Nat` addition, which coincides with the
source's `usize` arithmetic whenever no base-address subtraction has
underflowed; after an underflow the source's `Data` arm instead wraps
`end_addr` and panics on out-of-bounds indexing, a regime this model does
not represent and no theorem below exercises. -/
def unpackLoop (base_offset : Nat) :
    List (Except ε Record) → List Nat → Nat → Nat →
      List Nat × Except (UnpackingError ε) Nat
  | [], binary, _, used_bytes => (binary, .ok used_bytes)
  | r :: rest, binary, base_address, used_bytes =>
    match r with
    | .ok (.Data offset value) =>
      let end_addr := base_address + offset + value.length
      if end_addr > binary.length then
        (binary, .error (.AddressTooHigh end_addr binary.length))
      else
        unpackLoop base_offset rest (writeBytes binary (base_address + offset) value)
          base_address (used_bytes + value.length)
    | .ok (.ExtendedSegmentAddress base) =>
      unpackLoop base_offset rest binary (usizeSub (base <<< 4) base_offset) used_bytes
    | .ok (.ExtendedLinearAddress base) =>
      unpackLoop base_offset rest binary (usizeSub (base <<< 16) base_offset) used_bytes
    | .ok .EndOfFile => (binary, .ok used_bytes)
    | .ok (.StartSegmentAddress _ _) =>
      unpackLoop base_offset rest binary base_address used_bytes
    | .ok (.StartLinearAddress _) =>
      unpackLoop base_offset rest binary base_address used_bytes
    | .error err => (binary, .error (.Parsing err))

/-- `unpack_records(records, binary, base_offset)`: initialises
`base_address = 0`, `used_bytes = 0` and runs the loop. -/
def unpack_records (records : List (Except ε Record)) (binary : List Nat)
    (base_offset : Nat) : List Nat × Except (UnpackingError ε) Nat :=
  unpackLoop base_offset records binary 0 0

/-- `ReaderExt::to_vec`: allocates `vec![0xFF; binary_size]`, unpacks into
it, and on success returns the buffer with the used-byte count. -/
def to_vec (records : List (Except ε Record)) (binary_size : Nat)
    (base_offset : Nat) : Except (UnpackingError ε) (List Nat × Nat) :=
  match unpack_records records (List.replicate binary_size 0xFF) base_offset with
  | (binary, .ok used_bytes) => .ok (binary, used_bytes)
  | (_, .error e) => .error e

/-- `ReaderExt::to_array::<N>`: same as `to_vec` with a fixed capacity `N`
(`[0xFF; N]`); the const generic is modelled as a `Nat` argument. -/
def to_array (records : List (Except ε Record)) (N : Nat)
    (base_offset : Nat) : Except (UnpackingError ε) (List Nat × Nat) :=
  match unpack_records records (List.replicate N 0xFF) base_offset with
  | (binary, .ok used_bytes) => .ok (binary, used_bytes)
  | (_, .error e) => .error e

end IhexBinary

namespace IhexBinary

theorem writeBytes_length (value : List Nat) :
    ∀ (binary : List Nat) (start : Nat), (writeBytes binary start value).length = binary.length := by
  induction value with
  | nil => intro binary start; rfl
  | cons b bs ih =>
    intro binary start
    rw [writeBytes, ih, List.length_set]

theorem writeBytes_getElem? (value : List Nat) :
    ∀ (binary : List Nat) (start : Nat), start + value.length ≤ binary.length →
      ∀ p : Nat, (writeBytes binary start value)[p]? =
        if start ≤ p ∧ p < start + value.length then value[p - start]? else binary[p]? := by
  induction value with
  | nil =>
    intro binary start _ p
    rw [writeBytes, if_neg]
    rintro ⟨h1, h2⟩
    simp only [List.length_nil] at h2
    omega
  | cons b bs ih =>
    intro binary start h p
    simp only [List.length_cons] at h
    rw [writeBytes, ih (binary.set start b) (start + 1) (by rw [List.length_set]; omega) p]
    rcases Nat.lt_trichotomy p start with hlt | heq | hgt
    · rw [if_neg (by omega), if_neg (by simp only [List.length_cons]; omega),
        List.getElem?_set_ne (by omega)]
    · subst heq
      rw [if_neg (by omega), if_pos (by simp only [List.length_cons]; omega),
        List.getElem?_set_self (by omega)]
      simp
    · by_cases hub : p < start + 1 + bs.length
      · rw [if_pos ⟨by omega, hub⟩, if_pos (by simp only [List.length_cons]; omega)]
        have hps : p - start = (p - (start + 1)) + 1 := by omega
        rw [hps, List.getElem?_cons_succ]
      · rw [if_neg (by omega), if_neg (by simp only [List.length_cons]; omega),
          List.getElem?_set_ne (by omega)]

/-- C2: a `Data` record whose end address equals the buffer length exactly is
accepted and fully written (each payload byte lands at `base + offset + n`);
one whose end address exceeds the buffer length makes `unpack_records` return
`AddressTooHigh(end, L)` at once, with the buffer returned untouched by that
record. -/
theorem C2_end_boundary {ε : Type} (base_offset : Nat) (rest : List (Except ε Record))
    (binary : List Nat) (base_address used_bytes offset : Nat) (value : List Nat) :
    (base_address + offset + value.length = binary.length →
      unpackLoop base_offset (.ok (.Data offset value) :: rest) binary base_address used_bytes
        = unpackLoop base_offset rest (writeBytes binary (base_address + offset) value)
            base_address (used_bytes + value.length)
      ∧ ∀ n, n < value.length →
          (writeBytes binary (base_address + offset) value)[base_address + offset + n]?
            = value[n]?)
    ∧ (binary.length < base_address + offset + value.length →
      unpackLoop base_offset (.ok (.Data offset value) :: rest) binary base_address used_bytes
        = (binary, .error (.AddressTooHigh (base_address + offset + value.length) binary.length))) := by
  constructor
  · intro h
    constructor
    · rw [unpackLoop, if_neg (by omega)]
    · intro n hn
      rw [writeBytes_getElem? value binary (base_address + offset) (by omega),
        if_pos ⟨by omega, by omega⟩]
      congr 1
      omega
  · intro h
    rw [unpackLoop, if_pos (by omega)]

theorem C2_end_boundary_witness :
    (unpackLoop 0 ([Except.ok (Record.Data 1 [7])] : List (Except Unit Record)) [255, 255, 255] 1 0
        = unpackLoop 0 [] (writeBytes [255, 255, 255] (1 + 1) [7]) 1 (0 + [7].length)
      ∧ (writeBytes [255, 255, 255] (1 + 1) [7])[1 + 1 + 0]? = [7][0]?)
    ∧ unpackLoop 0 ([Except.ok (Record.Data 0 [7, 8])] : List (Except Unit Record)) [255] 0 0
        = ([255], Except.error (UnpackingError.AddressTooHigh (0 + 0 + [7, 8].length) [255].length)) := by
  have h := C2_end_boundary 0 ([] : List (Except Unit Record)) [255, 255, 255] 1 0 1 [7]
  exact ⟨⟨(h.1 (by decide)).1, (h.1 (by decide)).2 0 (by decide)⟩,
    (C2_end_boundary 0 [] [255] 0 0 0 [7, 8]).2 (by decide)⟩

end IhexBinary

namespace IhexBinary

/-- Decidable equality of `Except` values (used only to evaluate concrete
runs in witnesses). -/
instance {ε α : Type} [DecidableEq ε] [DecidableEq α] : DecidableEq (Except ε α) :=
  fun a b =>
    match a, b with
    | .ok x, .ok y =>
      match decEq x y with
      | .isTrue h => .isTrue (congrArg Except.ok h)
      | .isFalse h => .isFalse fun hc => h (Except.ok.inj hc)
    | .error x, .error y =>
      match decEq x y with
      | .isTrue h => .isTrue (congrArg Except.error h)
      | .isFalse h => .isFalse fun hc => h (Except.error.inj hc)
    | .ok _, .error _ => .isFalse fun hc => Except.noConfusion hc
    | .error _, .ok _ => .isFalse fun hc => Except.noConfusion hc

/-- C5: `EndOfFile` halts processing on the success path: the run on
`recs1 ++ EndOfFile :: rest` (with `recs1` the records before the first
`EndOfFile`) coincides with the run on `recs1` alone, so nothing after the
first `EndOfFile` is consumed or applied, and the returned `used_bytes` is
exactly what the prefix accumulated. -/
theorem C5_eof_halts {ε : Type} (base_offset : Nat) :
    ∀ (recs1 : List (Except ε Record)), (∀ r ∈ recs1, r ≠ .ok .EndOfFile) →
      ∀ (rest : List (Except ε Record)) (binary : List Nat) (base_address used_bytes : Nat),
        unpackLoop base_offset (recs1 ++ .ok .EndOfFile :: rest) binary base_address used_bytes
          = unpackLoop base_offset recs1 binary base_address used_bytes := by
  intro recs1
  induction recs1 with
  | nil =>
    intro _ rest binary base used
    rw [List.nil_append, unpackLoop, unpackLoop]
  | cons r recs1 ih =>
    intro hno rest binary base used
    have h1 : ∀ x ∈ recs1, x ≠ .ok .EndOfFile := fun x hx => hno x (List.mem_cons_of_mem _ hx)
    have hr : r ≠ .ok .EndOfFile := hno r (List.mem_cons_self _ _)
    rw [List.cons_append]
    cases r with
    | error e => rw [unpackLoop, unpackLoop]
    | ok k =>
      cases k with
      | Data offset value =>
        rw [unpackLoop, unpackLoop]
        by_cases hend : base + offset + value.length > binary.length
        · rw [if_pos hend, if_pos hend]
        · rw [if_neg hend, if_neg hend]
          exact ih h1 rest _ _ _
      | ExtendedSegmentAddress v =>
        rw [unpackLoop, unpackLoop]
        exact ih h1 rest _ _ _
      | ExtendedLinearAddress v =>
        rw [unpackLoop, unpackLoop]
        exact ih h1 rest _ _ _
      | EndOfFile => exact absurd rfl hr
      | StartSegmentAddress cs ip =>
        rw [unpackLoop, unpackLoop]
        exact ih h1 rest _ _ _
      | StartLinearAddress a =>
        rw [unpackLoop, unpackLoop]
        exact ih h1 rest _ _ _

theorem C5_eof_halts_witness :
    unpackLoop 0 (([Except.ok (Record.Data 0 [9])] : List (Except Unit Record))
        ++ Except.ok Record.EndOfFile :: [Except.ok (Record.Data 0 [1, 2, 3, 4, 5])]) [255, 255] 0 0
      = unpackLoop 0 [Except.ok (Record.Data 0 [9])] [255, 255] 0 0 :=
  C5_eof_halts 0 [Except.ok (Record.Data 0 [9])] (by decide) _ _ _ _

/-- C6: a parse failure makes the run return `Parsing(cause)` immediately;
if the records before the failure all processed successfully (final buffer
`bfin`), the whole run returns exactly that partially-written buffer with
the `Parsing` error — nothing after the failure is consumed, and no
rollback of prior writes happens. -/
theorem C6_parsing_halts {ε : Type} (base_offset : Nat) :
    ∀ (recs1 : List (Except ε Record)),
      (∀ r ∈ recs1, r.isOk = true ∧ r ≠ .ok .EndOfFile) →
      ∀ (err : ε) (rest : List (Except ε Record)) (binary bfin : List Nat)
        (base_address used_bytes ufin : Nat),
        unpackLoop base_offset recs1 binary base_address used_bytes = (bfin, .ok ufin) →
        unpackLoop base_offset (recs1 ++ .error err :: rest) binary base_address used_bytes
          = (bfin, .error (.Parsing err)) := by
  intro recs1
  induction recs1 with
  | nil =>
    intro _ err rest binary bfin base used ufin hrun
    rw [unpackLoop] at hrun
    cases hrun
    rw [List.nil_append, unpackLoop]
  | cons r recs1 ih =>
    intro hno err rest binary bfin base used ufin hrun
    have h1 : ∀ x ∈ recs1, x.isOk = true ∧ x ≠ .ok .EndOfFile :=
      fun x hx => hno x (List.mem_cons_of_mem _ hx)
    obtain ⟨hok, hne⟩ := hno r (List.mem_cons_self _ _)
    rw [List.cons_append]
    cases r with
    | error e => simp [Except.isOk, Except.toBool] at hok
    | ok k =>
      cases k with
      | Data offset value =>
        rw [unpackLoop] at hrun ⊢
        by_cases hend : base + offset + value.length > binary.length
        · rw [if_pos hend] at hrun
          cases hrun
        · rw [if_neg hend] at hrun ⊢
          exact ih h1 err rest _ bfin _ _ ufin hrun
      | ExtendedSegmentAddress v =>
        rw [unpackLoop] at hrun ⊢
        exact ih h1 err rest _ bfin _ _ ufin hrun
      | ExtendedLinearAddress v =>
        rw [unpackLoop] at hrun ⊢
        exact ih h1 err rest _ bfin _ _ ufin hrun
      | EndOfFile => exact absurd rfl hne
      | StartSegmentAddress cs ip =>
        rw [unpackLoop] at hrun ⊢
        exact ih h1 err rest _ bfin _ _ ufin hrun
      | StartLinearAddress a =>
        rw [unpackLoop] at hrun ⊢
        exact ih h1 err rest _ bfin _ _ ufin hrun

theorem C6_parsing_halts_witness :
    unpackLoop 0 (([Except.ok (Record.Data 0 [9])] : List (Except Unit Record))
        ++ Except.error () :: [Except.ok (Record.Data 0 [1, 2, 3])]) [255, 255] 0 0
      = ([9, 255], Except.error (UnpackingError.Parsing ())) :=
  C6_parsing_halts 0 [Except.ok (Record.Data 0 [9])] (by decide) () _ [255, 255] [9, 255] 0 0 1
    (by decide)

end IhexBinary

namespace IhexBinary

theorem unpackLoop_insert_skip {ε : Type} (base_offset : Nat) (r : Record)
    (hr : ∀ (rest : List (Except ε Record)) (binary : List Nat) (base_address used_bytes : Nat),
      unpackLoop base_offset (.ok r :: rest) binary base_address used_bytes
        = unpackLoop base_offset rest binary base_address used_bytes) :
    ∀ (recs1 recs2 : List (Except ε Record)) (binary : List Nat) (base_address used_bytes : Nat),
      unpackLoop base_offset (recs1 ++ .ok r :: recs2) binary base_address used_bytes
        = unpackLoop base_offset (recs1 ++ recs2) binary base_address used_bytes := by
  intro recs1
  induction recs1 with
  | nil =>
    intro recs2 binary base used
    rw [List.nil_append, List.nil_append, hr]
  | cons x recs1 ih =>
    intro recs2 binary base used
    rw [List.cons_append, List.cons_append]
    cases x with
    | error e => rw [unpackLoop, unpackLoop]
    | ok k =>
      cases k with
      | Data offset value =>
        rw [unpackLoop, unpackLoop]
        by_cases hend : base + offset + value.length > binary.length
        · rw [if_pos hend, if_pos hend]
        · rw [if_neg hend, if_neg hend]
          exact ih recs2 _ _ _
      | ExtendedSegmentAddress v =>
        rw [unpackLoop, unpackLoop]
        exact ih recs2 _ _ _
      | ExtendedLinearAddress v =>
        rw [unpackLoop, unpackLoop]
        exact ih recs2 _ _ _
      | EndOfFile => rw [unpackLoop, unpackLoop]
      | StartSegmentAddress cs ip =>
        rw [unpackLoop, unpackLoop]
        exact ih recs2 _ _ _
      | StartLinearAddress a =>
        rw [unpackLoop, unpackLoop]
        exact ih recs2 _ _ _

/-- C7: `StartAddress` records (both sub-variants) are no-ops: deleting one
from any position of the sequence changes neither the final buffer, nor the
result, so it leaves the image, the running base address and `used_bytes`
unchanged and iteration just continues. -/
theorem C7_start_address_noop {ε : Type} (base_offset : Nat)
    (recs1 recs2 : List (Except ε Record)) (binary : List Nat)
    (base_address used_bytes : Nat) :
    (∀ a : Nat,
      unpackLoop base_offset (recs1 ++ .ok (.StartLinearAddress a) :: recs2) binary
          base_address used_bytes
        = unpackLoop base_offset (recs1 ++ recs2) binary base_address used_bytes)
    ∧ (∀ cs ip : Nat,
      unpackLoop base_offset (recs1 ++ .ok (.StartSegmentAddress cs ip) :: recs2) binary
          base_address used_bytes
        = unpackLoop base_offset (recs1 ++ recs2) binary base_address used_bytes) := by
  constructor
  · intro a
    exact unpackLoop_insert_skip base_offset (.StartLinearAddress a)
      (fun rest b s u => by rw [unpackLoop]) recs1 recs2 binary base_address used_bytes
  · intro cs ip
    exact unpackLoop_insert_skip base_offset (.StartSegmentAddress cs ip)
      (fun rest b s u => by rw [unpackLoop]) recs1 recs2 binary base_address used_bytes

theorem usizeSub_eq_sub {a b : Nat} (ha : a < USIZE_MOD) (hb : b ≤ a) :
    usizeSub a b = a - b := by
  have hW : USIZE_MOD = 18446744073709551616 := by norm_num [USIZE_MOD]
  rw [hW] at ha
  have hbm : b % 18446744073709551616 = b := Nat.mod_eq_of_lt (by omega)
  rw [usizeSub, hW, hbm]
  have h2 : a + (18446744073709551616 - b) = (a - b) + 18446744073709551616 := by omega
  rw [h2, Nat.add_mod_right]
  exact Nat.mod_eq_of_lt (by omega)

theorem shiftLeft_lt_usize {v s : Nat} (hv : v < 2 ^ 16) (hs : s ≤ 16) :
    v <<< s < USIZE_MOD := by
  rw [Nat.shiftLeft_eq, USIZE_MOD]
  have h2 : (2 : Nat) ^ s ≤ 2 ^ 16 := Nat.pow_le_pow_right (by norm_num) hs
  have h3 : v * 2 ^ s ≤ v * 2 ^ 16 := Nat.mul_le_mul (Nat.le_refl v) h2
  have h4 : v * 2 ^ 16 < 2 ^ 16 * 2 ^ 16 :=
    (Nat.mul_lt_mul_right (by positivity)).mpr hv
  have h5 : (2 : Nat) ^ 16 * 2 ^ 16 < 2 ^ 64 := by norm_num
  omega

end IhexBinary

namespace IhexBinary

/-- C3: the base address starts at 0 (`unpack_records` enters its loop with
`base_address = 0`); an `ExtendedSegmentAddress v` record (absent underflow)
sets it to `(v <<< 4) - base_offset` and an `ExtendedLinearAddress v` record
to `(v <<< 16) - base_offset`; a `Data` record writes its bytes starting at
buffer index `base_address + offset` and leaves the base address unchanged,
as do `StartAddress` records — so a new base governs every subsequent `Data`
record until the next base-setting record. -/
theorem C3_base_address {ε : Type} (base_offset : Nat) :
    (∀ (records : List (Except ε Record)) (binary : List Nat),
      unpack_records records binary base_offset = unpackLoop base_offset records binary 0 0)
    ∧ (∀ v : Nat, v < 2 ^ 16 → base_offset ≤ v <<< 4 →
        ∀ (rest : List (Except ε Record)) (binary : List Nat) (base_address used_bytes : Nat),
          unpackLoop base_offset (.ok (.ExtendedSegmentAddress v) :: rest) binary
              base_address used_bytes
            = unpackLoop base_offset rest binary (v <<< 4 - base_offset) used_bytes)
    ∧ (∀ v : Nat, v < 2 ^ 16 → base_offset ≤ v <<< 16 →
        ∀ (rest : List (Except ε Record)) (binary : List Nat) (base_address used_bytes : Nat),
          unpackLoop base_offset (.ok (.ExtendedLinearAddress v) :: rest) binary
              base_address used_bytes
            = unpackLoop base_offset rest binary (v <<< 16 - base_offset) used_bytes)
    ∧ (∀ (offset : Nat) (value : List Nat) (rest : List (Except ε Record)) (binary : List Nat)
        (base_address used_bytes : Nat), base_address + offset + value.length ≤ binary.length →
          unpackLoop base_offset (.ok (.Data offset value) :: rest) binary
              base_address used_bytes
            = unpackLoop base_offset rest (writeBytes binary (base_address + offset) value)
                base_address (used_bytes + value.length))
    ∧ (∀ (a cs ip : Nat) (rest : List (Except ε Record)) (binary : List Nat)
        (base_address used_bytes : Nat),
          unpackLoop base_offset (.ok (.StartLinearAddress a) :: rest) binary
              base_address used_bytes
            = unpackLoop base_offset rest binary base_address used_bytes
          ∧ unpackLoop base_offset (.ok (.StartSegmentAddress cs ip) :: rest) binary
              base_address used_bytes
            = unpackLoop base_offset rest binary base_address used_bytes) := by
  refine ⟨fun records binary => rfl, ?_, ?_, ?_, ?_⟩
  · intro v hv hle rest binary base used
    rw [unpackLoop, usizeSub_eq_sub (shiftLeft_lt_usize hv (by norm_num)) hle]
  · intro v hv hle rest binary base used
    rw [unpackLoop, usizeSub_eq_sub (shiftLeft_lt_usize hv (by norm_num)) hle]
  · intro offset value rest binary base used h
    rw [unpackLoop, if_neg (by omega)]
  · intro a cs ip rest binary base used
    exact ⟨by rw [unpackLoop], by rw [unpackLoop]⟩

theorem C3_base_address_witness :
    unpack_records ([] : List (Except Unit Record)) [] 16 = unpackLoop 16 [] [] 0 0
    ∧ unpackLoop 16 ([Except.ok (Record.ExtendedSegmentAddress 2)] : List (Except Unit Record))
        [255] 0 0 = unpackLoop 16 [] [255] (2 <<< 4 - 16) 0
    ∧ unpackLoop 16 ([Except.ok (Record.ExtendedLinearAddress 1)] : List (Except Unit Record))
        [255] 0 0 = unpackLoop 16 [] [255] (1 <<< 16 - 16) 0
    ∧ unpackLoop 0 ([Except.ok (Record.Data 0 [7])] : List (Except Unit Record)) [255] 0 0
        = unpackLoop 0 [] (writeBytes [255] (0 + 0) [7]) 0 (0 + [7].length)
    ∧ unpackLoop 0 ([Except.ok (Record.StartLinearAddress 1)] : List (Except Unit Record))
        [] 5 6 = unpackLoop 0 [] [] 5 6 :=
  ⟨(C3_base_address 16).1 [] [],
   (C3_base_address 16).2.1 2 (by decide) (by decide) [] [255] 0 0,
   (C3_base_address 16).2.2.1 1 (by decide) (by decide) [] [255] 0 0,
   (C3_base_address 0).2.2.2.1 0 [7] [] [255] 0 0 (by decide),
   ((C3_base_address 0).2.2.2.2 1 2 3 [] [] 5 6).1⟩

/-- C9: the base-address computation `(v << shift) - base_offset` is plain
unguarded unsigned subtraction: when `base_offset ≤ v <<< shift` it is
exact, so no underflow occurs; when `base_offset` exceeds the shifted
value it underflows with no saturation and no error — concretely,
`ExtendedSegmentAddress 0` under `base_offset = 1` wraps the subtraction
to `2^64 - 1` (release-mode `usize` semantics), and the base-setting
record itself is still consumed on the success path: a sequence ending
with it returns `Ok`.  What the program then does with a `Data` record
under such a corrupted base (wrapping `end_addr` addition, panicking
index) is outside this model; no conjunct here exercises that regime. -/
theorem C9_base_subtraction :
    (∀ v base_offset : Nat, v < 2 ^ 16 → base_offset ≤ v <<< 4 →
      usizeSub (v <<< 4) base_offset = v <<< 4 - base_offset)
    ∧ (∀ v base_offset : Nat, v < 2 ^ 16 → base_offset ≤ v <<< 16 →
      usizeSub (v <<< 16) base_offset = v <<< 16 - base_offset)
    ∧ usizeSub (0 <<< 4) 1 = USIZE_MOD - 1
    ∧ unpack_records ([Except.ok (Record.ExtendedSegmentAddress 0)] :
        List (Except Unit Record)) [0xFF] 1 = ([0xFF], Except.ok 0) := by
  refine ⟨?_, ?_, by decide, by decide⟩
  · intro v b hv hle
    exact usizeSub_eq_sub (shiftLeft_lt_usize hv (by norm_num)) hle
  · intro v b hv hle
    exact usizeSub_eq_sub (shiftLeft_lt_usize hv (by norm_num)) hle

theorem C9_base_subtraction_witness :
    usizeSub (3 <<< 4) 5 = 3 <<< 4 - 5 ∧ usizeSub (3 <<< 16) 5 = 3 <<< 16 - 5 :=
  ⟨C9_base_subtraction.1 3 5 (by decide) (by decide),
   C9_base_subtraction.2.1 3 5 (by decide) (by decide)⟩

end IhexBinary

namespace IhexBinary

/-- Ghost companion of `unpackLoop`: the buffer indices assigned by the
copy loop of each accepted `Data` record (`binary[base + offset + n] = *b`),
replicating the loop's control flow exactly — `L` is the buffer length,
which the loop never changes.  Used to state which positions a run
writes. -/
def touchedLoop (base_offset L : Nat) :
    List (Except ε Record) → Nat → List Nat
  | [], _ => []
  | r :: rest, base_address =>
    match r with
    | .ok (.Data offset value) =>
      if base_address + offset + value.length > L then []
      else (List.range value.length).map (fun n => base_address + offset + n)
        ++ touchedLoop base_offset L rest base_address
    | .ok (.ExtendedSegmentAddress base) =>
      touchedLoop base_offset L rest (usizeSub (base <<< 4) base_offset)
    | .ok (.ExtendedLinearAddress base) =>
      touchedLoop base_offset L rest (usizeSub (base <<< 16) base_offset)
    | .ok .EndOfFile => []
    | .ok (.StartSegmentAddress _ _) => touchedLoop base_offset L rest base_address
    | .ok (.StartLinearAddress _) => touchedLoop base_offset L rest base_address
    | .error _ => []

theorem unpackLoop_frame {ε : Type} (base_offset : Nat) :
    ∀ (records : List (Except ε Record)) (binary : List Nat) (base_address used_bytes p : Nat),
      p ∉ touchedLoop base_offset binary.length records base_address →
      ((unpackLoop base_offset records binary base_address used_bytes).1)[p]? = binary[p]? := by
  intro records
  induction records with
  | nil => intro binary base used p _; rw [unpackLoop]
  | cons r rest ih =>
    intro binary base used p hp
    cases r with
    | error e => rw [unpackLoop]
    | ok k =>
      cases k with
      | Data offset value =>
        rw [unpackLoop]
        rw [touchedLoop] at hp
        by_cases hend : base + offset + value.length > binary.length
        · rw [if_pos hend]
        · rw [if_neg hend]
          rw [if_neg hend] at hp
          simp only [List.mem_append, not_or] at hp
          obtain ⟨hp1, hp2⟩ := hp
          have hlen : (writeBytes binary (base + offset) value).length = binary.length :=
            writeBytes_length value binary (base + offset)
          rw [ih (writeBytes binary (base + offset) value) base _ p (by rw [hlen]; exact hp2)]
          rw [writeBytes_getElem? value binary (base + offset) (by omega) p]
          rw [if_neg]
          rintro ⟨h1, h2⟩
          exact hp1 (by
            simp only [List.mem_map, List.mem_range]
            exact ⟨p - (base + offset), by omega, by omega⟩)
      | ExtendedSegmentAddress v =>
        rw [unpackLoop]
        rw [touchedLoop] at hp
        exact ih binary _ used p hp
      | ExtendedLinearAddress v =>
        rw [unpackLoop]
        rw [touchedLoop] at hp
        exact ih binary _ used p hp
      | EndOfFile => rw [unpackLoop]
      | StartSegmentAddress cs ip =>
        rw [unpackLoop]
        rw [touchedLoop] at hp
        exact ih binary _ used p hp
      | StartLinearAddress a =>
        rw [unpackLoop]
        rw [touchedLoop] at hp
        exact ih binary _ used p hp

/-- C4: every buffer position not written by an accepted `Data` record is
left unchanged by `unpack_records`, and since `to_vec` (resp. `to_array`)
pre-fills its freshly allocated buffer of length `binary_size` (resp. `N`)
with `0xFF`, every such position of their output still holds `0xFF`. -/
theorem C4_fill_preserved {ε : Type} (base_offset : Nat) :
    (∀ (records : List (Except ε Record)) (binary : List Nat) (p : Nat),
      p ∉ touchedLoop base_offset binary.length records 0 →
      ((unpack_records records binary base_offset).1)[p]? = binary[p]?)
    ∧ (∀ (records : List (Except ε Record)) (binary_size : Nat) (out : List Nat) (u p : Nat),
      to_vec records binary_size base_offset = .ok (out, u) →
      p < binary_size → p ∉ touchedLoop base_offset binary_size records 0 →
      out[p]? = some 0xFF)
    ∧ (∀ (records : List (Except ε Record)) (N : Nat) (out : List Nat) (u p : Nat),
      to_array records N base_offset = .ok (out, u) →
      p < N → p ∉ touchedLoop base_offset N records 0 →
      out[p]? = some 0xFF) := by
  have hmain : ∀ (records : List (Except ε Record)) (binary : List Nat) (p : Nat),
      p ∉ touchedLoop base_offset binary.length records 0 →
      ((unpack_records records binary base_offset).1)[p]? = binary[p]? :=
    fun records binary p hp => unpackLoop_frame base_offset records binary 0 0 p hp
  refine ⟨hmain, ?_, ?_⟩
  · intro records size out u p hres hp hpt
    rw [to_vec] at hres
    rcases hu : unpack_records records (List.replicate size 0xFF) base_offset with ⟨b, r⟩
    rw [hu] at hres
    cases r with
    | ok used =>
      simp only [Except.ok.injEq, Prod.mk.injEq] at hres
      obtain ⟨h1, h2⟩ := hres
      subst h1
      have := hmain records (List.replicate size 0xFF) p
        (by rw [List.length_replicate]; exact hpt)
      rw [hu] at this
      have h3 : b[p]? = (List.replicate size 0xFF)[p]? := this
      rw [h3, List.getElem?_replicate, if_pos hp]
    | error e => cases hres
  · intro records N out u p hres hp hpt
    rw [to_array] at hres
    rcases hu : unpack_records records (List.replicate N 0xFF) base_offset with ⟨b, r⟩
    rw [hu] at hres
    cases r with
    | ok used =>
      simp only [Except.ok.injEq, Prod.mk.injEq] at hres
      obtain ⟨h1, h2⟩ := hres
      subst h1
      have := hmain records (List.replicate N 0xFF) p
        (by rw [List.length_replicate]; exact hpt)
      rw [hu] at this
      have h3 : b[p]? = (List.replicate N 0xFF)[p]? := this
      rw [h3, List.getElem?_replicate, if_pos hp]
    | error e => cases hres

theorem C4_fill_preserved_witness :
    ((unpack_records ([Except.ok (Record.Data 1 [7])] : List (Except Unit Record))
        [255, 255, 255] 0).1)[0]? = [255, 255, 255][0]?
    ∧ ([255, 7, 255] : List Nat)[2]? = some 0xFF
    ∧ ([255, 7, 255] : List Nat)[0]? = some 0xFF :=
  ⟨(@C4_fill_preserved Unit 0).1 [Except.ok (Record.Data 1 [7])] [255, 255, 255] 0 (by decide),
   (@C4_fill_preserved Unit 0).2.1 [Except.ok (Record.Data 1 [7])] 3 [255, 7, 255] 1 2
     (by decide) (by decide) (by decide),
   (@C4_fill_preserved Unit 0).2.2 [Except.ok (Record.Data 1 [7])] 3 [255, 7, 255] 1 0
     (by decide) (by decide) (by decide)⟩

/-- C10: in this embedding address arithmetic is exact (the claim's
no-overflow assumption), and under the claim's no-underflow precondition
on base-setting records the bounds check `end_addr > binary.len()` guards
every write: each index `base_address + offset + n` assigned by an
accepted `Data` record's copy loop (collected by `touchedLoop`) is
strictly below the buffer length, so the indexing never goes out of
bounds. -/
theorem C10_writes_in_bounds {ε : Type} (base_offset : Nat) :
    ∀ (records : List (Except ε Record)) (L base_address : Nat),
      (∀ v : Nat, Except.ok (Record.ExtendedSegmentAddress v) ∈ records →
        base_offset ≤ v <<< 4) →
      (∀ v : Nat, Except.ok (Record.ExtendedLinearAddress v) ∈ records →
        base_offset ≤ v <<< 16) →
      ∀ p ∈ touchedLoop base_offset L records base_address, p < L := by
  intro records
  induction records with
  | nil =>
    intro L base _ _ p hp
    rw [touchedLoop] at hp
    cases hp
  | cons r rest ih =>
    intro L base hseg hlin p hp
    have hseg1 : ∀ v : Nat, Except.ok (Record.ExtendedSegmentAddress v) ∈ rest →
        base_offset ≤ v <<< 4 := fun v hv => hseg v (List.mem_cons_of_mem _ hv)
    have hlin1 : ∀ v : Nat, Except.ok (Record.ExtendedLinearAddress v) ∈ rest →
        base_offset ≤ v <<< 16 := fun v hv => hlin v (List.mem_cons_of_mem _ hv)
    cases r with
    | error e => rw [touchedLoop] at hp; cases hp
    | ok k =>
      cases k with
      | Data offset value =>
        rw [touchedLoop] at hp
        by_cases hend : base + offset + value.length > L
        · rw [if_pos hend] at hp; cases hp
        · rw [if_neg hend] at hp
          rcases List.mem_append.mp hp with hin | hin
          · obtain ⟨n, hn, rfl⟩ := by
              simpa only [List.mem_map, List.mem_range] using hin
            omega
          · exact ih L base hseg1 hlin1 p hin
      | ExtendedSegmentAddress v =>
        rw [touchedLoop] at hp
        exact ih L _ hseg1 hlin1 p hp
      | ExtendedLinearAddress v =>
        rw [touchedLoop] at hp
        exact ih L _ hseg1 hlin1 p hp
      | EndOfFile => rw [touchedLoop] at hp; cases hp
      | StartSegmentAddress cs ip =>
        rw [touchedLoop] at hp
        exact ih L base hseg1 hlin1 p hp
      | StartLinearAddress a =>
        rw [touchedLoop] at hp
        exact ih L base hseg1 hlin1 p hp

theorem C10_writes_in_bounds_witness :
    (16 : Nat) < 20 :=
  C10_writes_in_bounds 16
    ([Except.ok (Record.ExtendedSegmentAddress 2), Except.ok (Record.Data 0 [7, 8])] :
      List (Except Unit Record)) 20 0
    (by
      intro v hv
      simp only [List.mem_cons, List.not_mem_nil, or_false] at hv
      rcases hv with hv | hv
      · cases Record.ExtendedSegmentAddress.inj (Except.ok.inj hv)
        decide
      · cases hv)
    (by
      intro v hv
      simp only [List.mem_cons, List.not_mem_nil, or_false] at hv
      rcases hv with hv | hv
      · cases hv
      · cases hv)
    16 (by decide)

end IhexBinary

namespace IhexBinary

/-- Specification-side: total payload length of all `Data` records in a
sequence. -/
def sumDataLens : List (Except ε Record) → Nat
  | [] => 0
  | .ok (.Data _ value) :: rest => value.length + sumDataLens rest
  | .ok (.ExtendedSegmentAddress _) :: rest => sumDataLens rest
  | .ok (.ExtendedLinearAddress _) :: rest => sumDataLens rest
  | .ok .EndOfFile :: rest => sumDataLens rest
  | .ok (.StartSegmentAddress _ _) :: rest => sumDataLens rest
  | .ok (.StartLinearAddress _) :: rest => sumDataLens rest
  | .error _ :: rest => sumDataLens rest

/-- Specification-side: every bounds check of a run from `base_address`
against a buffer of length `L` passes and no parse failure occurs
(mirrors the loop's control flow; `EndOfFile` would stop the loop, so
everything after it is ignored). -/
def allFits (base_offset L : Nat) : List (Except ε Record) → Nat → Bool
  | [], _ => true
  | r :: rest, base_address =>
    match r with
    | .ok (.Data offset value) =>
      decide (base_address + offset + value.length ≤ L)
        && allFits base_offset L rest base_address
    | .ok (.ExtendedSegmentAddress base) =>
      allFits base_offset L rest (usizeSub (base <<< 4) base_offset)
    | .ok (.ExtendedLinearAddress base) =>
      allFits base_offset L rest (usizeSub (base <<< 16) base_offset)
    | .ok .EndOfFile => true
    | .ok (.StartSegmentAddress _ _) => allFits base_offset L rest base_address
    | .ok (.StartLinearAddress _) => allFits base_offset L rest base_address
    | .error _ => false

theorem unpackLoop_allFits {ε : Type} (base_offset : Nat) :
    ∀ (records : List (Except ε Record)), Except.ok Record.EndOfFile ∉ records →
      ∀ (binary : List Nat) (base_address used_bytes : Nat),
        allFits base_offset binary.length records base_address = true →
        (unpackLoop base_offset records binary base_address used_bytes).2
          = .ok (used_bytes + sumDataLens records) := by
  intro records
  induction records with
  | nil =>
    intro _ binary base used _
    rw [unpackLoop, sumDataLens, Nat.add_zero]
  | cons r rest ih =>
    intro hno binary base used hfits
    have hno1 : Except.ok Record.EndOfFile ∉ rest := fun h => hno (List.mem_cons_of_mem _ h)
    cases r with
    | error e => rw [allFits] at hfits; cases hfits
    | ok k =>
      cases k with
      | Data offset value =>
        rw [allFits, Bool.and_eq_true, decide_eq_true_iff] at hfits
        obtain ⟨hle, hfits⟩ := hfits
        rw [unpackLoop, if_neg (by omega), sumDataLens]
        rw [ih hno1 _ base (used + value.length)
          (by rw [writeBytes_length]; exact hfits)]
        rw [Nat.add_assoc]
      | ExtendedSegmentAddress v =>
        rw [allFits] at hfits
        rw [unpackLoop, sumDataLens]
        exact ih hno1 binary _ used hfits
      | ExtendedLinearAddress v =>
        rw [allFits] at hfits
        rw [unpackLoop, sumDataLens]
        exact ih hno1 binary _ used hfits
      | EndOfFile => exact absurd (List.mem_cons_self _ _) hno
      | StartSegmentAddress cs ip =>
        rw [allFits] at hfits
        rw [unpackLoop, sumDataLens]
        exact ih hno1 binary base used hfits
      | StartLinearAddress a =>
        rw [allFits] at hfits
        rw [unpackLoop, sumDataLens]
        exact ih hno1 binary base used hfits

/-- C8: a record sequence exhausted with no `EndOfFile`, no parse failure
and no bounds violation (`allFits`) still succeeds: `unpack_records`
returns `Ok` with the total payload length of all its `Data` records —
the end-of-file marker is advisory, not required for success. -/
theorem C8_success_without_eof {ε : Type} (base_offset : Nat)
    (records : List (Except ε Record)) (binary : List Nat)
    (hno : Except.ok Record.EndOfFile ∉ records)
    (hfits : allFits base_offset binary.length records 0 = true) :
    (unpack_records records binary base_offset).2 = .ok (sumDataLens records) := by
  have h := unpackLoop_allFits base_offset records hno binary 0 0 hfits
  rw [Nat.zero_add] at h
  exact h

theorem C8_success_without_eof_witness :
    (unpack_records ([Except.ok (Record.Data 0 [7]),
        Except.ok (Record.StartLinearAddress 1)] : List (Except Unit Record)) [255, 255] 0).2
      = Except.ok (sumDataLens ([Except.ok (Record.Data 0 [7]),
          Except.ok (Record.StartLinearAddress 1)] : List (Except Unit Record)))
    ∧ sumDataLens ([Except.ok (Record.Data 0 [7]),
        Except.ok (Record.StartLinearAddress 1)] : List (Except Unit Record)) = 1 :=
  ⟨C8_success_without_eof 0 _ [255, 255] (by decide) (by decide), by decide⟩

end IhexBinary

namespace IhexBinary

/-- Specification-side: an all-`Data` sequence given as (offset, payload)
pairs. -/
def dataRecords (ds : List (Nat × List Nat)) : List (Except ε Record) :=
  ds.map fun d => .ok (.Data d.1 d.2)

/-- Specification-side: the `Data` record `d` covers buffer position `p`
(its write range `[offset, offset + len)` contains `p`, with base 0). -/
def covers (d : Nat × List Nat) (p : Nat) : Prop :=
  d.1 ≤ p ∧ p < d.1 + d.2.length

instance (d : Nat × List Nat) (p : Nat) : Decidable (covers d p) :=
  inferInstanceAs (Decidable (_ ∧ _))

/-- Specification-side: the payload byte destined for position `p` by the
covering record applied last in sequence order (later records win). -/
def lastWrite (p : Nat) : List (Nat × List Nat) → Option Nat
  | [] => none
  | d :: rest =>
    match lastWrite p rest with
    | some b => some b
    | none => if covers d p then d.2[p - d.1]? else none

/-- The sequential application of all-`Data` records to a buffer (base
address 0 throughout). -/
def applyData : List (Nat × List Nat) → List Nat → List Nat
  | [], binary => binary
  | d :: rest, binary => applyData rest (writeBytes binary d.1 d.2)

theorem unpackLoop_dataRecords {ε : Type} (base_offset : Nat) :
    ∀ (ds : List (Nat × List Nat)) (binary : List Nat) (used_bytes : Nat),
      (∀ d ∈ ds, d.1 + d.2.length ≤ binary.length) →
      unpackLoop base_offset (dataRecords ds : List (Except ε Record)) binary 0 used_bytes
        = (applyData ds binary, .ok (used_bytes + (ds.map fun d => d.2.length).sum)) := by
  intro ds
  induction ds with
  | nil =>
    intro binary used _
    rw [dataRecords, List.map_nil, unpackLoop, applyData, List.map_nil, List.sum_nil,
      Nat.add_zero]
  | cons d rest ih =>
    intro binary used hfit
    have hd : d.1 + d.2.length ≤ binary.length := hfit d (List.mem_cons_self _ _)
    rw [dataRecords, List.map_cons, unpackLoop, if_neg (by omega)]
    rw [Nat.zero_add]
    have hfit1 : ∀ x ∈ rest, x.1 + x.2.length ≤ (writeBytes binary d.1 d.2).length := by
      intro x hx
      rw [writeBytes_length]
      exact hfit x (List.mem_cons_of_mem _ hx)
    rw [← dataRecords, ih (writeBytes binary d.1 d.2) (used + d.2.length) hfit1]
    rw [applyData, List.map_cons, List.sum_cons, Nat.add_assoc]

theorem applyData_getElem? :
    ∀ (ds : List (Nat × List Nat)) (binary : List Nat) (p : Nat),
      (∀ d ∈ ds, d.1 + d.2.length ≤ binary.length) →
      (applyData ds binary)[p]? =
        match lastWrite p ds with
        | some b => some b
        | none => binary[p]? := by
  intro ds
  induction ds with
  | nil => intro binary p _; rw [applyData, lastWrite]
  | cons d rest ih =>
    intro binary p hfit
    have hd : d.1 + d.2.length ≤ binary.length := hfit d (List.mem_cons_self _ _)
    have hfit1 : ∀ x ∈ rest, x.1 + x.2.length ≤ (writeBytes binary d.1 d.2).length := by
      intro x hx
      rw [writeBytes_length]
      exact hfit x (List.mem_cons_of_mem _ hx)
    rw [applyData, ih (writeBytes binary d.1 d.2) p hfit1, lastWrite]
    cases hl : lastWrite p rest with
    | some b => rfl
    | none =>
      rw [writeBytes_getElem? d.2 binary d.1 hd p]
      by_cases hc : covers d p
      · rw [if_pos hc, if_pos (by rw [covers] at hc; exact hc)]
        rw [covers] at hc
        rw [List.getElem?_eq_getElem (by omega)]
      · rw [if_neg hc, if_neg (by rw [covers] at hc; exact hc)]

theorem lastWrite_eq_none (p : Nat) :
    ∀ ds : List (Nat × List Nat),
      lastWrite p ds = none ↔ ∀ d ∈ ds, ¬covers d p := by
  intro ds
  induction ds with
  | nil =>
    rw [lastWrite]
    exact ⟨fun _ d hd => absurd hd (List.not_mem_nil d), fun _ => rfl⟩
  | cons d rest ih =>
    cases hl : lastWrite p rest with
    | some b =>
      rw [lastWrite, hl]
      constructor
      · intro h; cases h
      · intro h
        have hn : lastWrite p rest = none :=
          ih.mpr fun x hx => h x (List.mem_cons_of_mem _ hx)
        rw [hl] at hn
        cases hn
    | none =>
      rw [lastWrite, hl]
      constructor
      · intro h x hx hc
        rcases List.mem_cons.mp hx with rfl | hmem
        · rw [if_pos hc] at h
          rw [covers] at hc
          rw [List.getElem?_eq_getElem (by omega)] at h
          cases h
        · exact (ih.mp hl) x hmem hc
      · intro h
        rw [if_neg (h d (List.mem_cons_self _ _))]

end IhexBinary

namespace IhexBinary

theorem lastWrite_cons_of_some {p b : Nat} {d : Nat × List Nat}
    {rest : List (Nat × List Nat)} (h : lastWrite p rest = some b) :
    lastWrite p (d :: rest) = some b := by
  rw [lastWrite, h]

theorem lastWrite_unique (p : Nat) :
    ∀ (ds : List (Nat × List Nat)) (i : Nat) (hi : i < ds.length),
      covers (ds.get ⟨i, hi⟩) p →
      (∀ j : Nat, ∀ hj : j < ds.length, j ≠ i → ¬covers (ds.get ⟨j, hj⟩) p) →
      lastWrite p ds = (ds.get ⟨i, hi⟩).2[p - (ds.get ⟨i, hi⟩).1]? := by
  intro ds
  induction ds with
  | nil => intro i hi; cases hi
  | cons d rest ih =>
    intro i hi hcov huniq
    cases i with
    | zero =>
      have hn : lastWrite p rest = none := by
        rw [lastWrite_eq_none]
        intro x hx hc
        obtain ⟨⟨k, hk⟩, rfl⟩ := List.mem_iff_get.mp hx
        exact huniq (k + 1) (by simpa using Nat.succ_lt_succ hk) (Nat.succ_ne_zero k) hc
      have hcovd : covers d p := hcov
      rw [lastWrite, hn]
      show (if covers d p then d.2[p - d.1]? else none) = _
      rw [if_pos hcovd]
      rfl
    | succ k =>
      have hk : k < rest.length := by
        rw [List.length_cons] at hi
        omega
      have hcov' : covers (rest.get ⟨k, hk⟩) p := hcov
      have huniq' : ∀ j : Nat, ∀ hj : j < rest.length, j ≠ k →
          ¬covers (rest.get ⟨j, hj⟩) p := by
        intro j hj hne
        exact huniq (j + 1) (by rw [List.length_cons]; omega) (by omega)
      have hrest := ih k hk hcov' huniq'
      have hb : p - (rest.get ⟨k, hk⟩).1 < (rest.get ⟨k, hk⟩).2.length := by
        have hc : (rest.get ⟨k, hk⟩).1 ≤ p ∧ p < (rest.get ⟨k, hk⟩).1
            + (rest.get ⟨k, hk⟩).2.length := by
          rw [covers] at hcov'
          exact hcov'
        omega
      have hsome : lastWrite p rest
          = some ((rest.get ⟨k, hk⟩).2.get ⟨p - (rest.get ⟨k, hk⟩).1, hb⟩) := by
        rw [hrest, List.getElem?_eq_getElem hb]
        exact rfl
      rw [lastWrite_cons_of_some hsome]
      exact (List.getElem?_eq_getElem hb).symm

end IhexBinary

namespace IhexBinary

/-- C1: for a sequence of only `Data` records each fitting within the
buffer, the run succeeds and `used_bytes` is the exact sum of the payload
lengths (overlapping ranges double-counted, not deduplicated); the final
buffer holds at every covered position the byte of the covering record
applied last in sequence order (and the initial byte where no record
covers), and a position covered by exactly one record holds that record's
corresponding payload byte. -/
theorem C1_data_only_semantics {ε : Type} (base_offset : Nat)
    (ds : List (Nat × List Nat)) (binary : List Nat)
    (hfit : ∀ d ∈ ds, d.1 + d.2.length ≤ binary.length) :
    unpack_records (dataRecords ds : List (Except ε Record)) binary base_offset
      = (applyData ds binary, .ok ((ds.map fun d => d.2.length).sum))
    ∧ (∀ p b : Nat, lastWrite p ds = some b → (applyData ds binary)[p]? = some b)
    ∧ (∀ p : Nat, lastWrite p ds = none → (applyData ds binary)[p]? = binary[p]?)
    ∧ (∀ p i : Nat, ∀ hi : i < ds.length,
        covers (ds.get ⟨i, hi⟩) p →
        (∀ j : Nat, ∀ hj : j < ds.length, j ≠ i → ¬covers (ds.get ⟨j, hj⟩) p) →
        (applyData ds binary)[p]? = (ds.get ⟨i, hi⟩).2[p - (ds.get ⟨i, hi⟩).1]?) := by
  refine ⟨?_, ?_, ?_, ?_⟩
  · have h := @unpackLoop_dataRecords ε base_offset ds binary 0 hfit
    rw [Nat.zero_add] at h
    exact h
  · intro p b hl
    rw [applyData_getElem? ds binary p hfit, hl]
  · intro p hl
    rw [applyData_getElem? ds binary p hfit, hl]
  · intro p i hi hcov huniq
    have hl := lastWrite_unique p ds i hi hcov huniq
    rw [applyData_getElem? ds binary p hfit, hl]
    have hb : p - (ds.get ⟨i, hi⟩).1 < (ds.get ⟨i, hi⟩).2.length := by
      have hc : (ds.get ⟨i, hi⟩).1 ≤ p ∧ p < (ds.get ⟨i, hi⟩).1
          + (ds.get ⟨i, hi⟩).2.length := by
        rw [covers] at hcov
        exact hcov
      omega
    rw [List.getElem?_eq_getElem hb]

theorem C1_data_only_semantics_witness :
    unpack_records (dataRecords [(0, [1, 2]), (1, [3])] : List (Except Unit Record))
        [255, 255, 255, 255] 5
      = (applyData [(0, [1, 2]), (1, [3])] [255, 255, 255, 255],
         Except.ok ((([(0, [1, 2]), (1, [3])] : List (Nat × List Nat)).map
           fun d => d.2.length).sum))
    ∧ (applyData [(0, [1, 2]), (1, [3])] [255, 255, 255, 255])[1]? = some 3
    ∧ (applyData [(0, [1, 2]), (1, [3])] [255, 255, 255, 255])[3]?
        = [255, 255, 255, 255][3]?
    ∧ (applyData [(0, [1, 2]), (1, [3])] [255, 255, 255, 255])[0]?
        = ([1, 2] : List Nat)[0]? := by
  have h := @C1_data_only_semantics Unit 5 [(0, [1, 2]), (1, [3])]
    [255, 255, 255, 255] (by decide)
  refine ⟨h.1, h.2.1 1 3 (by decide), h.2.2.1 3 (by decide), ?_⟩
  exact h.2.2.2 0 0 (by decide) (by decide)
    (by
      intro j hj hne
      have hj2 : j < 2 := by simpa using hj
      interval_cases j
      · exact absurd rfl hne
      · exact (by decide : ¬covers ((1 : Nat), ([3] : List Nat)) 0))

end IhexBinary
